import Mathlib

/-!
Verification of the wordle-ai-validator repository's core logic.

The development shallowly embeds the TypeScript functions of
`test-gemini.ts` (src/unnamed/part_000) and `test-wordlist-fetch.ts`:
the DSL rule compiler `parseRules`, the constraint evaluator
`checkRules`, the dictionary validator `validateWordExistence`, the
retrying request executor `handleGeminiApiCall` and the paginated
word-list collector `fetchWordListByPosition`.

Strings are modelled as `List Char`; network effects are modelled as
explicit oracles (functions from the request to the response) and the
global caches as explicitly passed state.
-/

namespace WordleAI

/-- `[A-Z]` character class. -/
def isUpperAlpha (c : Char) : Bool := 'A' ≤ c && c ≤ 'Z'

/-- `\d` character class. -/
def isDigitChar (c : Char) : Bool := '0' ≤ c && c ≤ '9'

/-- Whitespace as matched by `\s` inside a trimmed line (space or tab). -/
def isSpaceChar (c : Char) : Bool := c = ' ' || c = '\t'

/-- Whitespace removed by JavaScript `String.prototype.trim`
(the characters that can actually occur around a line here). -/
def isTrimChar (c : Char) : Bool := c = ' ' || c = '\t' || c = '\r' || c = '\n'

/-- The `[A-Z, ]` character class of the absent-letters capture. -/
def isAbsentClassChar (c : Char) : Bool := isUpperAlpha c || c = ',' || c = ' '

/-- The `[\d, ]` character class of the `NOT AT` capture. -/
def isNotAtClassChar (c : Char) : Bool := isDigitChar c || c = ',' || c = ' '

/-- Split a character list at every occurrence of the separator,
like JavaScript `String.prototype.split` with a one-character
separator (separators removed, empty segments kept). -/
def splitOn (sep : Char) : List Char → List (List Char)
  | [] => [[]]
  | c :: rest =>
    if c = sep then [] :: splitOn sep rest
    else
      match splitOn sep rest with
      | [] => [[c]]
      | s :: ss => (c :: s) :: ss

/-- JavaScript `String.prototype.trim` on a line. -/
def trimWs (l : List Char) : List Char :=
  ((l.dropWhile isTrimChar).reverse.dropWhile isTrimChar).reverse

/-- Strip a literal pattern from the front of the input,
returning the remainder when the pattern is present. -/
def dropLit : List Char → List Char → Option (List Char)
  | [], cs => some cs
  | _ :: _, [] => none
  | p :: ps, c :: cs => if c = p then dropLit ps cs else none

/-- Numeric value of a nonempty digit run (`parseInt` on an
all-digit string, leading zeros allowed). -/
def digitsToNat (ds : List Char) : Nat :=
  ds.foldl (fun acc c => acc * 10 + (c.toNat - '0'.toNat)) 0

/-- JavaScript `parseInt(s, 10)` on a trimmed segment: the value of the
maximal leading digit run, `none` (NaN) when there is none. -/
def parseNatPrefix (cs : List Char) : Option Nat :=
  match cs.takeWhile isDigitChar with
  | [] => none
  | ds => some (digitsToNat ds)

/-- The compiled rule structure (`WordleRules` in the source):
`exact` maps a zero-based position to the required letter, `present`
maps a letter to its disallowed zero-based positions, `absent` lists
the forbidden letters, `length` is the required word length. -/
structure RuleSet where
  exact : List (Nat × Char)
  present : List (Char × List Nat)
  absent : List Char
  length : Nat
deriving DecidableEq, Repr

/-- Write `map[k] = v` on an association list: overwrite in place,
append when the key is new. -/
def upsert {α β : Type} [DecidableEq α] : List (α × β) → α → β → List (α × β)
  | [], k, v => [(k, v)]
  | (k', v') :: rest, k, v =>
    if k' = k then (k, v) :: rest else (k', v') :: upsert rest k v

/-- The regex `^([A-Z]) AT (\d)$` of `parseRules`: a letter, the literal
`AT`, one digit. Returns the letter and the digit's numeric value. -/
def matchExactLine : List Char → Option (Char × Nat)
  | [c, ' ', 'A', 'T', ' ', d] =>
    if isUpperAlpha c && isDigitChar d then some (c, d.toNat - '0'.toNat) else none
  | _ => none

/-- Letters extracted from the absent capture:
`split(',').map(trim).filter(length = 1)`. -/
def absentLetters (body : List Char) : List Char :=
  ((splitOn ',' body).map trimWs).filterMap fun s =>
    match s with
    | [c] => some c
    | _ => none

/-- The regex `^NO\s+([A-Z, ]+)$` of `parseRules` together with the letter
extraction. The input line is already trimmed, so the mandatory
whitespace after `NO` is modelled as a leading whitespace run followed
by a nonempty remainder drawn from the `[A-Z, ]` class. -/
def matchAbsentLine : List Char → Option (List Char)
  | 'N' :: 'O' :: rest =>
    let ws := rest.takeWhile isSpaceChar
    let body := rest.dropWhile isSpaceChar
    if ws ≠ [] ∧ body ≠ [] ∧ body.all isAbsentClassChar then
      some (absentLetters body)
    else none
  | _ => none

/-- The regex `NOT AT ([\d, ]+)$` searched anywhere in the line
(leftmost start whose remainder reaches the end of the line inside the
`[\d, ]` class), as used for the disallowed positions of a presence
rule. Returns the capture. -/
def notAtCapture : List Char → Option (List Char)
  | [] => none
  | c :: rest =>
    match dropLit ("NOT AT ".data) (c :: rest) with
    | some tail =>
      if tail ≠ [] ∧ tail.all isNotAtClassChar then some tail
      else notAtCapture rest
    | none => notAtCapture rest

/-- `capture.split(',').map(p => parseInt(p.trim(), 10) - 1).filter(p => p >= 0)`:
each segment parsing to a one-based value `d ≥ 1` contributes the
zero-based position `d - 1`; NaN segments and values below 1 are dropped. -/
def parsePositions (capture : List Char) : List Nat :=
  (splitOn ',' capture).filterMap fun seg =>
    match parseNatPrefix (trimWs seg) with
    | some d => if 1 ≤ d then some (d - 1) else none
    | none => none

/-- The regex `^([A-Z]) IN WORD` of `parseRules` (not anchored at the
end) plus the optional `NOT AT` appendix: returns the letter and its
disallowed zero-based positions (empty when no `NOT AT` part matches). -/
def matchPresentLine : List Char → Option (Char × List Nat)
  | c :: ' ' :: 'I' :: 'N' :: ' ' :: 'W' :: 'O' :: 'R' :: 'D' :: rest =>
    if isUpperAlpha c then
      some (c, match notAtCapture (c :: ' ' :: 'I' :: 'N' :: ' ' :: 'W' :: 'O' :: 'R' :: 'D' :: rest) with
                | some capture => parsePositions capture
                | none => [])
    else none
  | _ => none

/-- The regex `^LENGTH:\s*(\d+)$` of `parseRules`: the literal
`LENGTH:`, optional whitespace, then digits to the end of the line. -/
def matchLengthLine (line : List Char) : Option Nat :=
  match dropLit ("LENGTH:".data) line with
  | some rest =>
    let ds := rest.dropWhile isSpaceChar
    if ds ≠ [] ∧ ds.all isDigitChar then some (digitsToNat ds) else none
  | none => none

/-- Fourth classification stage of a line: the length rule; a line
matching nothing is silently ignored. -/
def applyLineLength (r : RuleSet) (line : List Char) : RuleSet :=
  match matchLengthLine line with
  | some n => { r with length := n }
  | none => r

/-- Third classification stage of a line: the presence rule. -/
def applyLinePresent (r : RuleSet) (line : List Char) : RuleSet :=
  match matchPresentLine line with
  | some (c, ps) => { r with present := upsert r.present c ps }
  | none => applyLineLength r line

/-- Second classification stage of a line: the absence rule. -/
def applyLineAbsent (r : RuleSet) (line : List Char) : RuleSet :=
  match matchAbsentLine line with
  | some letters => { r with absent := r.absent ++ letters }
  | none => applyLinePresent r line

/-- Process one trimmed uppercase line exactly as the `for` body of
`parseRules`: the exact-position pattern is tried first and consumes
the line only when its digit lies in 1–9 (the source `continue` sits
inside that range test, so an out-of-range digit falls through to the
remaining patterns); otherwise the absence, presence and length
patterns are tried in order. -/
def applyLine (r : RuleSet) (line : List Char) : RuleSet :=
  match matchExactLine line with
  | some (c, pos) =>
    if 1 ≤ pos ∧ pos ≤ 9 then
      { r with exact := upsert r.exact (pos - 1) c }
    else applyLineAbsent r line
  | none => applyLineAbsent r line

/-- `dslRules.toUpperCase().split('\n').map(trim).filter(nonempty)`. -/
def parseLines (dsl : List Char) : List (List Char) :=
  ((splitOn '\n' (dsl.map Char.toUpper)).map trimWs).filter fun l => l ≠ []

/-- The DSL rule compiler `parseRules`: fold the line classifier over
the normalized lines, starting from the default rule structure
(no constraints, length 5). -/
def parseRules (dsl : List Char) : RuleSet :=
  (parseLines dsl).foldl applyLine { exact := [], present := [], absent := [], length := 5 }

/-- Check 1 of `checkRules`: `word.length !== rules.length`. -/
def checkLength (w : List Char) (rules : RuleSet) : Bool :=
  w.length == rules.length

/-- Check 2 of `checkRules`: every exact entry must find its letter at
its position (`word[index] !== rules.exact[index]` rejects; reading past
the end yields `undefined`, modelled by `List.get?`). -/
def checkExact (w : List Char) (rules : RuleSet) : Bool :=
  rules.exact.all fun pc => w.get? pc.1 == some pc.2

/-- Check 3 of `checkRules`: no absent letter occurs in the word. -/
def checkAbsent (w : List Char) (rules : RuleSet) : Bool :=
  rules.absent.all fun c => !(w.contains c)

/-- Check 4 of `checkRules`: every present letter occurs in the word
and does not sit at any of its disallowed positions. -/
def checkPresent (w : List Char) (rules : RuleSet) : Bool :=
  rules.present.all fun lp =>
    w.contains lp.1 && lp.2.all fun i => !(w.get? i == some lp.1)

/-- The constraint evaluator `checkRules`: uppercase the candidate,
then run the four checks in source order, each independently
sufficient to reject. -/
def checkRules (word : List Char) (rules : RuleSet) : Bool :=
  let w := word.map Char.toUpper
  checkLength w rules && checkExact w rules && checkAbsent w rules && checkPresent w rules

/-! ## The dictionary validator `validateWordExistence`

The global `WORD_CACHE` object becomes an explicitly passed
association list keyed by the lowercased word and the required length
(the source key is the string `word + ":" + requiredLength` built after
lowercasing); the dictionary API becomes an oracle from the looked-up
word to the outcome of the request. The `requests` field records the
network calls the invocation performs. -/

/-- Outcome of one dictionary API request. -/
inductive DictResult where
  | ok
  | notFound
  | otherStatus (code : Nat)
  | netError
deriving DecidableEq, Repr

/-- The validation cache (`WORD_CACHE`), newest entry first. -/
abbrev Cache := List ((List Char × Nat) × Bool)

/-- Reading `WORD_CACHE[cacheKey]`. -/
def cacheLookup (cache : Cache) (key : List Char × Nat) : Option Bool :=
  match cache with
  | [] => none
  | (k, v) :: rest => if k = key then some v else cacheLookup rest key

/-- Result of one `validateWordExistence` call: the verdict, the cache
afterwards, and the dictionary requests issued (in order). -/
structure ValidateOut where
  verdict : Bool
  cache : Cache
  requests : List (List Char)
deriving DecidableEq, Repr

/-- The dictionary validator `validateWordExistence`: lowercase the
word, consult the cache, fail fast on a length mismatch, otherwise
query the dictionary API — a success caches `true`, a 404 caches
`false`, and any other status or a network error caches `true`
(the permissive fallback). -/
def validateWordExistence (net : List Char → DictResult) (cache : Cache)
    (word0 : List Char) (requiredLength : Nat) : ValidateOut :=
  let word := word0.map Char.toLower
  let key := (word, requiredLength)
  match cacheLookup cache key with
  | some b => ⟨b, cache, []⟩
  | none =>
    if word.length ≠ requiredLength then ⟨false, (key, false) :: cache, []⟩
    else
      match net word with
      | .ok => ⟨true, (key, true) :: cache, [word]⟩
      | .notFound => ⟨false, (key, false) :: cache, [word]⟩
      | .otherStatus _ => ⟨true, (key, true) :: cache, [word]⟩
      | .netError => ⟨true, (key, true) :: cache, [word]⟩

/-! ## Characterizations of the evaluator's four checks -/

lemma checkLength_iff (w : List Char) (r : RuleSet) :
    checkLength w r = true ↔ w.length = r.length := by
  simp [checkLength]

lemma checkExact_iff (w : List Char) (r : RuleSet) :
    checkExact w r = true ↔ ∀ pc ∈ r.exact, w.get? pc.1 = some pc.2 := by
  simp [checkExact, List.all_eq_true]

lemma checkAbsent_iff (w : List Char) (r : RuleSet) :
    checkAbsent w r = true ↔ ∀ c ∈ r.absent, c ∉ w := by
  simp [checkAbsent, List.all_eq_true, List.contains]

lemma checkPresent_iff (w : List Char) (r : RuleSet) :
    checkPresent w r = true ↔
      ∀ lp ∈ r.present, lp.1 ∈ w ∧ ∀ i ∈ lp.2, w.get? i ≠ some lp.1 := by
  simp [checkPresent, List.all_eq_true, List.contains]

lemma checkRules_def (word : List Char) (r : RuleSet) :
    checkRules word r =
      (checkLength (word.map Char.toUpper) r && checkExact (word.map Char.toUpper) r &&
        checkAbsent (word.map Char.toUpper) r && checkPresent (word.map Char.toUpper) r) := rfl

/-- `checkRules` accepts exactly when all four checks accept. -/
lemma checkRules_eq_true_iff (word : List Char) (r : RuleSet) :
    checkRules word r = true ↔
      (word.length = r.length ∧
       (∀ pc ∈ r.exact, (word.map Char.toUpper).get? pc.1 = some pc.2) ∧
       (∀ c ∈ r.absent, c ∉ word.map Char.toUpper) ∧
       (∀ lp ∈ r.present, lp.1 ∈ word.map Char.toUpper ∧
          ∀ i ∈ lp.2, (word.map Char.toUpper).get? i ≠ some lp.1)) := by
  rw [checkRules_def]
  simp only [Bool.and_eq_true, checkLength_iff, checkExact_iff, checkAbsent_iff,
    checkPresent_iff, List.length_map]
  tauto

/-! ## Lemmas about the rule compiler -/

lemma mem_upsert {α β : Type} [DecidableEq α] (l : List (α × β)) (k : α) (v : β)
    (x : α × β) (hx : x ∈ upsert l k v) : x = (k, v) ∨ x ∈ l := by
  induction l with
  | nil =>
    simp only [upsert, List.mem_singleton] at hx
    exact Or.inl hx
  | cons hd tl ih =>
    obtain ⟨k', v'⟩ := hd
    simp only [upsert] at hx
    by_cases hk : k' = k
    · rw [if_pos hk] at hx
      rcases List.mem_cons.1 hx with h1 | h1
      · exact Or.inl h1
      · exact Or.inr (List.mem_cons.2 (Or.inr h1))
    · rw [if_neg hk] at hx
      rcases List.mem_cons.1 hx with h1 | h1
      · exact Or.inr (List.mem_cons.2 (Or.inl h1))
      · rcases ih h1 with h2 | h2
        · exact Or.inl h2
        · exact Or.inr (List.mem_cons.2 (Or.inr h2))

lemma applyLineAbsent_exact (r : RuleSet) (line : List Char) :
    (applyLineAbsent r line).exact = r.exact := by
  unfold applyLineAbsent applyLinePresent applyLineLength
  split
  · rfl
  · split
    · rfl
    · split <;> rfl

lemma applyLineAbsent_length (r : RuleSet) (line : List Char) :
    (applyLineAbsent r line).length = r.length ∨
      matchLengthLine line = some (applyLineAbsent r line).length := by
  unfold applyLineAbsent applyLinePresent applyLineLength
  split
  · exact Or.inl rfl
  · split
    · exact Or.inl rfl
    · split
      · rename_i n heq
        exact Or.inr heq
      · exact Or.inl rfl

lemma applyLine_exact_bound (r : RuleSet) (line : List Char)
    (h : ∀ pc ∈ r.exact, pc.1 < 9) : ∀ pc ∈ (applyLine r line).exact, pc.1 < 9 := by
  unfold applyLine
  split
  · rename_i c pos heq
    split
    · rename_i hrange
      intro pc hpc
      rcases mem_upsert _ _ _ _ hpc with h1 | h1
      · rw [h1]
        omega
      · exact h pc h1
    · rw [applyLineAbsent_exact]
      exact h
  · rw [applyLineAbsent_exact]
    exact h

lemma applyLine_length (r : RuleSet) (line : List Char) :
    (applyLine r line).length = r.length ∨
      matchLengthLine line = some (applyLine r line).length := by
  unfold applyLine
  split
  · split
    · exact Or.inl rfl
    · exact applyLineAbsent_length r line
  · exact applyLineAbsent_length r line

lemma foldl_applyLine_exact_bound (lines : List (List Char)) (r : RuleSet)
    (h : ∀ pc ∈ r.exact, pc.1 < 9) :
    ∀ pc ∈ (lines.foldl applyLine r).exact, pc.1 < 9 := by
  induction lines generalizing r with
  | nil => exact h
  | cons l ls ih => exact ih _ (applyLine_exact_bound _ _ h)

lemma foldl_applyLine_length (lines : List (List Char)) (r : RuleSet) :
    (lines.foldl applyLine r).length = r.length ∨
      ∃ line ∈ lines, matchLengthLine line = some (lines.foldl applyLine r).length := by
  induction lines generalizing r with
  | nil => exact Or.inl rfl
  | cons l ls ih =>
    rcases ih (applyLine r l) with h | h
    · rcases applyLine_length r l with h2 | h2
      · exact Or.inl (by rw [List.foldl_cons, h, h2])
      · exact Or.inr ⟨l, List.mem_cons_self _ _, by rw [List.foldl_cons, h]; exact h2⟩
    · obtain ⟨line, hl, he⟩ := h
      exact Or.inr ⟨line, List.mem_cons.2 (Or.inr hl), he⟩

/-! ## Claim theorems: rule compiler and constraint evaluator -/

/-- C1: `checkRules` accepts a candidate `word` for a rule set `r`
exactly when all four checks hold — the length matches, every exact
position carries its required letter, no absent letter occurs, and
every present letter occurs but at none of its disallowed positions
(the word being compared after uppercasing). Each failing conjunct is
independently sufficient to reject, and the verdict is a pure function
of the pair: the embedding is a function of `(word, r)` alone, so call
order and prior calls cannot influence it. -/
theorem spec_C1 (word : List Char) (r : RuleSet) :
    checkRules word r = true ↔
      (word.length = r.length ∧
       (∀ pc ∈ r.exact, (word.map Char.toUpper).get? pc.1 = some pc.2) ∧
       (∀ c ∈ r.absent, c ∉ word.map Char.toUpper) ∧
       (∀ lp ∈ r.present, lp.1 ∈ word.map Char.toUpper ∧
          ∀ i ∈ lp.2, (word.map Char.toUpper).get? i ≠ some lp.1)) :=
  checkRules_eq_true_iff word r

/-- C8: when a letter `L` is listed in `absent` and is also a key of
`present`, every candidate is rejected; and whenever the (uppercased)
candidate contains `L`, the absence check itself — which `checkRules`
runs before the presence check — already evaluates to `false`. -/
theorem spec_C8 (word : List Char) (r : RuleSet) (L : Char) (ps : List Nat)
    (hab : L ∈ r.absent) (hpr : (L, ps) ∈ r.present) :
    checkRules word r = false ∧
      (L ∈ word.map Char.toUpper → checkAbsent (word.map Char.toUpper) r = false) := by
  constructor
  · rw [Bool.eq_false_iff]
    intro h
    rw [checkRules_eq_true_iff] at h
    obtain ⟨-, -, habs, hpres⟩ := h
    by_cases hm : L ∈ word.map Char.toUpper
    · exact habs L hab hm
    · exact hm (hpres (L, ps) hpr).1
  · intro hm
    rw [Bool.eq_false_iff]
    intro h
    exact (checkAbsent_iff _ r).1 h L hab hm

/-- Witness for C8 at a concrete conflicted rule set and candidate. -/
theorem spec_C8_witness :
    ('A' ∈ (RuleSet.mk [] [('A', [])] ['A'] 5).absent) ∧
    (('A', ([] : List Nat)) ∈ (RuleSet.mk [] [('A', [])] ['A'] 5).present) ∧
    (checkRules "PEACH".data (RuleSet.mk [] [('A', [])] ['A'] 5) = false ∧
      ('A' ∈ "PEACH".data.map Char.toUpper →
        checkAbsent ("PEACH".data.map Char.toUpper) (RuleSet.mk [] [('A', [])] ['A'] 5) = false)) :=
  ⟨by decide, by decide, spec_C8 "PEACH".data _ 'A' [] (by decide) (by decide)⟩

/-- C10: the evaluator is total on every rule set. An `exact` entry at a
position `≥ r.length` makes every candidate fail (out-of-range indexing
yields no letter, which never matches, and raises no error); and
filtering away the disallowed `present` positions that lie at or beyond
the candidate's length never changes the verdict — such entries are
silently inert. -/
theorem spec_C10 (word : List Char) (r : RuleSet) :
    ((∃ pc ∈ r.exact, r.length ≤ pc.1) → checkRules word r = false) ∧
      checkRules word
        { r with present := r.present.map fun lp => (lp.1, lp.2.filter fun i => i < word.length) }
        = checkRules word r := by
  constructor
  · rintro ⟨pc, hpc, hlen⟩
    rw [Bool.eq_false_iff]
    intro h
    rw [checkRules_eq_true_iff] at h
    obtain ⟨h1, h2, -, -⟩ := h
    have hnone : (word.map Char.toUpper).get? pc.1 = none :=
      List.get?_eq_none.2 (by rw [List.length_map]; omega)
    have := h2 pc hpc
    rw [hnone] at this
    exact Option.noConfusion this
  · have hu : (word.map Char.toUpper).length = word.length := List.length_map _ _
    have key :
        (∀ lp ∈ (r.present.map fun lp => (lp.1, lp.2.filter fun i => i < word.length)),
            lp.1 ∈ word.map Char.toUpper ∧
              ∀ i ∈ lp.2, (word.map Char.toUpper).get? i ≠ some lp.1) ↔
          (∀ lp ∈ r.present, lp.1 ∈ word.map Char.toUpper ∧
              ∀ i ∈ lp.2, (word.map Char.toUpper).get? i ≠ some lp.1) := by
      constructor
      · intro h lp hlp
        have h' := h (lp.1, lp.2.filter fun i => i < word.length)
          (List.mem_map.2 ⟨lp, hlp, rfl⟩)
        refine ⟨h'.1, fun i hi => ?_⟩
        by_cases hlt : i < word.length
        · exact h'.2 i (List.mem_filter.2 ⟨hi, by simpa using hlt⟩)
        · intro hc
          rw [List.get?_eq_none.2 (by omega : (word.map Char.toUpper).length ≤ i)] at hc
          exact Option.noConfusion hc
      · intro h lp' hlp'
        obtain ⟨lp, hlp, rfl⟩ := List.mem_map.1 hlp'
        exact ⟨(h lp hlp).1, fun i hi => (h lp hlp).2 i (List.mem_filter.1 hi).1⟩
    rw [Bool.eq_iff_iff, checkRules_eq_true_iff, checkRules_eq_true_iff]
    constructor
    · rintro ⟨a, b, c, d⟩
      exact ⟨a, b, c, key.1 d⟩
    · rintro ⟨a, b, c, d⟩
      exact ⟨a, b, c, key.2 d⟩

/-- C9: case-insensitivity at the public interface. `checkRules`
uppercases its candidate first, so two candidates equal up to letter
case get the same verdict against every rule set; and
`validateWordExistence` lowercases its word before forming the cache
key and the request, so two casings of the same word behave
identically (one cache entry, one verdict). -/
theorem spec_C9 (w w' : List Char) :
    (∀ r : RuleSet, w.map Char.toUpper = w'.map Char.toUpper →
        checkRules w r = checkRules w' r) ∧
    (∀ (net : List Char → DictResult) (cache : Cache) (n : Nat),
        w.map Char.toLower = w'.map Char.toLower →
        validateWordExistence net cache w n = validateWordExistence net cache w' n) := by
  constructor
  · intro r h
    rw [checkRules_def, checkRules_def, h]
  · intro net cache n h
    simp only [validateWordExistence]
    rw [h]

/-- Counterexample to C6 as stated: the `NOT AT` clause of a presence
line parses multi-digit positions, so the one-based source position 10
is stored (as zero-based 9) rather than dropped — a stored position
that does not originate from a source digit in 1–9. -/
theorem spec_C6_counterexample :
    parseRules ("A IN WORD NOT AT 10".data) =
      { exact := [], present := [('A', [9])], absent := [], length := 5 } := by decide

/-- C6 amended: every key of `exact` does originate from a one-based
source digit in 1–9 (the compiler range-checks the single digit of an
exact line before storing it), so every stored exact position is below
9; the disallowed positions of `present`, by contrast, may originate
from any one-based integer ≥ 1, only values below 1 being dropped. -/
theorem spec_C6_amended (dsl : List Char) (pc : Nat × Char)
    (h : pc ∈ (parseRules dsl).exact) : pc.1 < 9 :=
  foldl_applyLine_exact_bound (parseLines dsl) _ (by simp) pc h

/-- Witness for the amended C6 at a concrete rule text. -/
theorem spec_C6_witness :
    (((2 : Nat), 'O') ∈ (parseRules "O AT 3".data).exact) ∧ ((2 : Nat), 'O').1 < 9 :=
  ⟨by decide, spec_C6_amended "O AT 3".data ((2 : Nat), 'O') (by decide)⟩

/-- Counterexample to C7 as stated: a `LENGTH: 0` line parses and is
stored, so the compiled `length` is 0, not a positive integer. -/
theorem spec_C7_counterexample :
    (parseRules "LENGTH: 0".data).length = 0 := by decide

/-- C7 amended: the compiled `length` is the default 5 when no length
line is recognized, or else the integer parsed from a recognized
`LENGTH: <DIGITS>` line — which is a natural number that can be 0
(when the digits are all zeros), not necessarily positive. -/
theorem spec_C7_amended (dsl : List Char) :
    (parseRules dsl).length = 5 ∨
      ∃ line ∈ parseLines dsl, matchLengthLine line = some (parseRules dsl).length := by
  have h := foldl_applyLine_length (parseLines dsl)
    { exact := [], present := [], absent := [], length := 5 }
  simpa [parseRules] using h

/-- C5: the validator decides in order — a cache hit is returned with
no network call; a cache miss with mismatched length caches and returns
`false` with no network call; otherwise the dictionary is queried
exactly once and a success caches `true`, a 404 caches `false`, and any
other status or a network failure caches `true` (the permissive
fallback). In particular, after a network failure for a
length-matching word the verdict `true` is cached, and a second lookup
for the same key issues no network call. -/
theorem spec_C5 (net : List Char → DictResult) (cache : Cache) (word : List Char) (n : Nat) :
    (∀ b, cacheLookup cache (word.map Char.toLower, n) = some b →
        validateWordExistence net cache word n = ⟨b, cache, []⟩) ∧
    (cacheLookup cache (word.map Char.toLower, n) = none → word.length ≠ n →
        validateWordExistence net cache word n =
          ⟨false, ((word.map Char.toLower, n), false) :: cache, []⟩) ∧
    (cacheLookup cache (word.map Char.toLower, n) = none → word.length = n →
        ((net (word.map Char.toLower) = .ok →
            validateWordExistence net cache word n =
              ⟨true, ((word.map Char.toLower, n), true) :: cache, [word.map Char.toLower]⟩) ∧
         (net (word.map Char.toLower) = .notFound →
            validateWordExistence net cache word n =
              ⟨false, ((word.map Char.toLower, n), false) :: cache, [word.map Char.toLower]⟩) ∧
         (∀ c, net (word.map Char.toLower) = .otherStatus c →
            validateWordExistence net cache word n =
              ⟨true, ((word.map Char.toLower, n), true) :: cache, [word.map Char.toLower]⟩) ∧
         (net (word.map Char.toLower) = .netError →
            validateWordExistence net cache word n =
              ⟨true, ((word.map Char.toLower, n), true) :: cache, [word.map Char.toLower]⟩ ∧
            validateWordExistence net (((word.map Char.toLower, n), true) :: cache) word n =
              ⟨true, ((word.map Char.toLower, n), true) :: cache, []⟩))) := by
  have hlen : (word.map Char.toLower).length = word.length := List.length_map _ _
  refine ⟨?_, ?_, ?_⟩
  · intro b hb
    simp only [validateWordExistence, hb]
  · intro hnone hne
    simp only [validateWordExistence, hnone]
    rw [if_pos (by omega : ¬ (word.map Char.toLower).length = n)]
  · intro hnone heq
    have hif : ¬ ¬ (word.map Char.toLower).length = n := by omega
    refine ⟨?_, ?_, ?_, ?_⟩
    · intro hnet
      simp only [validateWordExistence, hnone, hnet]
      rw [if_neg hif]
    · intro hnet
      simp only [validateWordExistence, hnone, hnet]
      rw [if_neg hif]
    · intro c hnet
      simp only [validateWordExistence, hnone, hnet]
      rw [if_neg hif]
    · intro hnet
      constructor
      · simp only [validateWordExistence, hnone, hnet]
        rw [if_neg hif]
      · simp [validateWordExistence, cacheLookup]

/-! ## The retrying request executor `handleGeminiApiCall`

The `for` loop over attempt indices `0 … maxRetries-1` is modelled by
structural recursion over a list of per-attempt observations whose
length is `maxRetries`: entry `i` is what attempt `i+1` observes
(`rest = []` encodes `i = maxRetries - 1`). Crucially, in the source
the `throw` for a non-success, non-retried status sits inside the
`try` block, so the attempt's own `catch` receives it and — like a
timeout (`AbortError`) or a transport error — retries it with the
doubled delay unless the attempt is the last one, in which case the
error propagates. -/

/-- What one attempt observes: a success payload, a non-success HTTP
status (with the optional server-supplied `error.message` and the
`statusText`), a timeout (abort), or a transport-level failure. -/
inductive Attempt (α : Type) where
  | ok (payload : α)
  | httpStatus (code : Nat) (serverMsg : Option (List Char)) (statusText : List Char)
  | timeout
  | netError (msg : List Char)
deriving DecidableEq, Repr

/-- The error the call surfaces. -/
inductive GemError where
  | http (code : Nat) (msg : List Char)
  | timedOut
  | net (msg : List Char)
  | exhausted
deriving DecidableEq, Repr

/-- `errorBody.error?.message || response.statusText` (an empty server
message is falsy and falls back to the status text). -/
def errMsg (serverMsg : Option (List Char)) (statusText : List Char) : List Char :=
  match serverMsg with
  | some m => if m = [] then statusText else m
  | none => statusText

/-- Returned payload or thrown error. -/
inductive CallOutcome (α : Type) where
  | ok (payload : α)
  | error (e : GemError)
deriving DecidableEq, Repr

/-- Result of a run: the outcome, the number of attempts made, and the
backoff delays slept (in order). -/
structure RunResult (α : Type) where
  result : CallOutcome α
  attempts : Nat
  delays : List Nat
deriving DecidableEq, Repr

/-- The retry loop of `handleGeminiApiCall`: a success returns; a 429
on a non-final attempt sleeps the current delay and doubles it; any
other non-success status throws a diagnostic (status plus, when
obtainable, the server message), which the attempt's own `catch`
intercepts and — exactly like a timeout or transport error — retries
with backoff unless the attempt is the final one, in which case the
error propagates. An empty attempt list (`maxRetries = 0`) falls off
the loop into the final `throw`. -/
def handleGeminiApiCall {α : Type} : List (Attempt α) → Nat → RunResult α
  | [], _ => ⟨.error .exhausted, 0, []⟩
  | a :: rest, delay =>
    match a with
    | .ok p => ⟨.ok p, 1, []⟩
    | .httpStatus code sm st =>
      if code == 429 && !rest.isEmpty then
        let r := handleGeminiApiCall rest (delay * 2)
        ⟨r.result, r.attempts + 1, delay :: r.delays⟩
      else
        if rest.isEmpty then ⟨.error (.http code (errMsg sm st)), 1, []⟩
        else
          let r := handleGeminiApiCall rest (delay * 2)
          ⟨r.result, r.attempts + 1, delay :: r.delays⟩
    | .timeout =>
      if rest.isEmpty then ⟨.error .timedOut, 1, []⟩
      else
        let r := handleGeminiApiCall rest (delay * 2)
        ⟨r.result, r.attempts + 1, delay :: r.delays⟩
    | .netError m =>
      if rest.isEmpty then ⟨.error (.net m), 1, []⟩
      else
        let r := handleGeminiApiCall rest (delay * 2)
        ⟨r.result, r.attempts + 1, delay :: r.delays⟩

/-- Every nonempty run takes one of three shapes: an immediate success,
a terminal failure on the final attempt, or a retry that recurses with
the doubled delay. -/
lemma handleGeminiApiCall_cons_shape {α : Type} (a : Attempt α) (rest : List (Attempt α))
    (d : Nat) :
    (∃ p, a = .ok p ∧ handleGeminiApiCall (a :: rest) d = ⟨.ok p, 1, []⟩) ∨
    (rest = [] ∧ (∀ p, a ≠ .ok p) ∧
      ∃ e, handleGeminiApiCall (a :: rest) d = ⟨.error e, 1, []⟩) ∨
    (rest ≠ [] ∧ (∀ p, a ≠ .ok p) ∧
      handleGeminiApiCall (a :: rest) d =
        ⟨(handleGeminiApiCall rest (d * 2)).result,
         (handleGeminiApiCall rest (d * 2)).attempts + 1,
         d :: (handleGeminiApiCall rest (d * 2)).delays⟩) := by
  cases a with
  | ok p => exact Or.inl ⟨p, rfl, rfl⟩
  | httpStatus code sm st =>
    cases rest with
    | nil =>
      refine Or.inr (Or.inl ⟨rfl, fun p h => Attempt.noConfusion h,
        .http code (errMsg sm st), ?_⟩)
      simp [handleGeminiApiCall]
    | cons b tl =>
      refine Or.inr (Or.inr ⟨by simp, fun p h => Attempt.noConfusion h, ?_⟩)
      by_cases hc : code = 429
      · simp [handleGeminiApiCall, hc]
      · simp [handleGeminiApiCall, hc]
  | timeout =>
    cases rest with
    | nil =>
      exact Or.inr (Or.inl ⟨rfl, fun p h => Attempt.noConfusion h, .timedOut,
        by simp [handleGeminiApiCall]⟩)
    | cons b tl =>
      exact Or.inr (Or.inr ⟨by simp, fun p h => Attempt.noConfusion h,
        by simp [handleGeminiApiCall]⟩)
  | netError m =>
    cases rest with
    | nil =>
      exact Or.inr (Or.inl ⟨rfl, fun p h => Attempt.noConfusion h, .net m,
        by simp [handleGeminiApiCall]⟩)
    | cons b tl =>
      exact Or.inr (Or.inr ⟨by simp, fun p h => Attempt.noConfusion h,
        by simp [handleGeminiApiCall]⟩)

lemma handleGeminiApiCall_attempts_pos {α : Type} (a : Attempt α) (rest : List (Attempt α))
    (d : Nat) : 1 ≤ (handleGeminiApiCall (a :: rest) d).attempts := by
  rcases handleGeminiApiCall_cons_shape a rest d with ⟨p, -, h⟩ | ⟨-, -, e, h⟩ | ⟨-, -, h⟩
  · rw [h]
  · rw [h]
  · rw [h]
    exact Nat.succ_le_succ (Nat.zero_le _)

/-- Counterexample to C2 as stated: a 500 response — not a 429, not a
timeout — on the first of two allowed attempts is retried (the thrown
diagnostic is caught by the attempt's own catch block), and the call
then succeeds on the second attempt: two attempts are made and the
outcome is a success, not a first-occurrence fatal failure. -/
theorem spec_C2_counterexample :
    handleGeminiApiCall
        [Attempt.httpStatus 500 none ("Internal Server Error".data), Attempt.ok (0 : Nat)]
        1000 =
      ⟨CallOutcome.ok 0, 2, [1000]⟩ := by decide

/-- C2 amended: every failed attempt — a 429, a timeout, a transport
failure, but also any other non-success response (whose thrown
diagnostic, carrying the status and when obtainable the server
message, is caught by the attempt's own catch) — is retried up to the
configured number of attempts with a delay that starts at the initial
value and doubles after each retry; the call fails only when the
final allowed attempt fails, and succeeds exactly when some attempt
succeeds, every earlier attempt having failed. -/
theorem spec_C2_amended {α : Type} (outcomes : List (Attempt α)) (d : Nat) :
    (handleGeminiApiCall outcomes d).attempts ≤ outcomes.length ∧
    (handleGeminiApiCall outcomes d).delays =
      (List.range ((handleGeminiApiCall outcomes d).attempts - 1)).map (fun k => d * 2 ^ k) ∧
    (∀ i, i + 1 < (handleGeminiApiCall outcomes d).attempts →
        ∀ p, outcomes.get? i ≠ some (.ok p)) ∧
    (∀ p, (handleGeminiApiCall outcomes d).result = .ok p →
        outcomes.get? ((handleGeminiApiCall outcomes d).attempts - 1) = some (.ok p)) ∧
    (∀ e, (handleGeminiApiCall outcomes d).result = .error e →
        (handleGeminiApiCall outcomes d).attempts = outcomes.length) := by
  induction outcomes generalizing d with
  | nil =>
    exact ⟨Nat.le_refl _, rfl, fun i hi p => absurd hi (Nat.not_lt_zero (i + 1)),
      fun p hp => CallOutcome.noConfusion hp, fun e _ => rfl⟩
  | cons a rest ih =>
    rcases handleGeminiApiCall_cons_shape a rest d with
      ⟨p, ha, h⟩ | ⟨hrest, hfail, e, h⟩ | ⟨hrest, hfail, h⟩
    · rw [h]
      dsimp only
      refine ⟨by simp, rfl, ?_, ?_, ?_⟩
      · intro i hi p'
        exact absurd hi (by omega)
      · intro p' hp'
        cases hp'
        rw [ha]
        rfl
      · intro e he
        exact CallOutcome.noConfusion he
    · rw [h]
      dsimp only
      subst hrest
      refine ⟨by simp, rfl, ?_, ?_, ?_⟩
      · intro i hi p'
        exact absurd hi (by omega)
      · intro p' hp'
        exact CallOutcome.noConfusion hp'
      · intro e' _
        rfl
    · rw [h]
      dsimp only
      obtain ⟨ih1, ih2, ih3, ih4, ih5⟩ := ih (d * 2)
      have hpos : 1 ≤ (handleGeminiApiCall rest (d * 2)).attempts := by
        cases rest with
        | nil => exact absurd rfl hrest
        | cons b tl => exact handleGeminiApiCall_attempts_pos b tl (d * 2)
      obtain ⟨m, hm⟩ := Nat.exists_eq_add_of_le hpos
      refine ⟨?_, ?_, ?_, ?_, ?_⟩
      · have := Nat.add_le_add_right ih1 1
        simpa using this
      · rw [Nat.add_sub_cancel]
        rw [hm] at ih2 ⊢
        rw [show 1 + m - 1 = m from by omega] at ih2
        rw [show 1 + m = m + 1 from by omega, List.range_succ_eq_map, List.map_cons,
          List.map_map, ih2]
        simp only [pow_zero, mul_one, List.cons.injEq, true_and]
        apply List.map_congr_left
        intro k _
        simp only [Function.comp_apply, pow_succ]
        ring
      · intro i hi p'
        cases i with
        | zero =>
          intro hc
          rw [List.get?_cons_zero] at hc
          exact hfail p' (Option.some.inj hc)
        | succ j =>
          rw [List.get?_cons_succ]
          refine ih3 j ?_ p'
          omega
      · intro p' hp'
        have hr := ih4 p' hp'
        rw [Nat.add_sub_cancel, hm]
        rw [hm, show 1 + m - 1 = m from by omega] at hr
        rw [show 1 + m = m + 1 from by omega, List.get?_cons_succ]
        exact hr
      · intro e' he'
        have := ih5 e' he'
        simp [this]

/-! ## The paginated collector `fetchWordListByPosition`

The `while (hasMorePages)` loop is modelled by recursion with explicit
fuel (an upper bound on the number of iterations; running out of fuel
is the artifact outcome `fuelOut`, which the real loop never produces —
it would simply keep iterating). The network becomes an oracle from
the page number to the response for the chosen seed URL, and the two
pure page-analysis helpers — `extractWordsFromHtml` and
`getNextPageNumber`, both regex scrapers over the fetched markup — are
passed as parameters `extract` and `nextOf` over an abstract page-body
type, since the collector's control flow (the claims' subject) only
consumes their results. -/

/-- One page fetch: a success body or a non-success HTTP status. -/
inductive FetchResult (η : Type) where
  | ok (body : η)
  | err (status : Nat)
deriving DecidableEq, Repr

/-- Outcome of the collection loop: a normal finish carrying the
deduplicated words, the thrown error caught by the surrounding
`try`/`catch` (which then returns `[]`), or the fuel artifact. -/
inductive CollectOutcome (α : Type) where
  | done (words : List α)
  | failed
  | fuelOut
deriving DecidableEq, Repr

def dedupAux {α : Type} [DecidableEq α] (seen : List α) : List α → List α
  | [] => []
  | a :: l => if a ∈ seen then dedupAux seen l else a :: dedupAux (a :: seen) l

/-- `Array.from(new Set(allWords))`: keep the first occurrence of each
element, in order. -/
def dedupFirst {α : Type} [DecidableEq α] (l : List α) : List α := dedupAux [] l

/-- The body of the pagination `while` loop, from `currentPage = cur`
with accumulated words `acc`: fetch the page; a non-success response
other than a 404 on a page after the first throws (`failed`), while
such a 404 breaks out and returns the deduplicated accumulation;
otherwise extract the page's words and continue exactly when the page
declares a (truthy) next-page number equal to `cur + 1`. -/
def fetchPagesLoop {η α : Type} [DecidableEq α] (net : Nat → FetchResult η)
    (extract : η → List α) (nextOf : η → Option Nat) :
    Nat → Nat → List α → CollectOutcome α × List Nat
  | 0, _, _ => (.fuelOut, [])
  | fuel + 1, cur, acc =>
    match net cur with
    | .err status =>
      if status = 404 ∧ 1 < cur then (.done (dedupFirst acc), [cur])
      else (.failed, [cur])
    | .ok body =>
      let acc2 := acc ++ extract body
      match nextOf body with
      | some n =>
        if n ≠ 0 ∧ n = cur + 1 then
          let r := fetchPagesLoop net extract nextOf fuel n acc2
          (r.1, cur :: r.2)
        else (.done (dedupFirst acc2), [cur])
      | none => (.done (dedupFirst acc2), [cur])

/-- The words one page contributes (its extraction on a success,
nothing on a failure). -/
def pageWords {η α : Type} (net : Nat → FetchResult η) (extract : η → List α)
    (p : Nat) : List α :=
  match net p with
  | .ok body => extract body
  | .err _ => []

/-- The collector `fetchWordListByPosition`: without an exact-position
seed it returns `[]` without fetching; otherwise it runs the
pagination loop from page 1 and returns its deduplicated words, the
surrounding `catch` turning a thrown fetch error into `[]`. -/
def fetchWordListByPosition {η : Type} (net : Nat → FetchResult η)
    (extract : Nat → η → List (List Char)) (nextOf : η → Option Nat)
    (rules : RuleSet) (fuel : Nat) : List (List Char) :=
  if rules.exact.isEmpty then []
  else
    match (fetchPagesLoop net (extract rules.length) nextOf fuel 1 []).1 with
    | .done ws => ws
    | .failed => []
    | .fuelOut => []

lemma fetchPagesLoop_err {η α : Type} [DecidableEq α] {net : Nat → FetchResult η}
    {extract : η → List α} {nextOf : η → Option Nat} {cur s : Nat}
    (fuel : Nat) (acc : List α) (hnc : net cur = .err s) :
    fetchPagesLoop net extract nextOf (fuel + 1) cur acc =
      if s = 404 ∧ 1 < cur then (.done (dedupFirst acc), [cur])
      else (.failed, [cur]) := by
  simp only [fetchPagesLoop, hnc]

lemma fetchPagesLoop_ok_none {η α : Type} [DecidableEq α] {net : Nat → FetchResult η}
    {extract : η → List α} {nextOf : η → Option Nat} {cur : Nat} {b : η}
    (fuel : Nat) (acc : List α) (hnc : net cur = .ok b) (hnx : nextOf b = none) :
    fetchPagesLoop net extract nextOf (fuel + 1) cur acc =
      (.done (dedupFirst (acc ++ extract b)), [cur]) := by
  simp only [fetchPagesLoop, hnc, hnx]

lemma fetchPagesLoop_ok_some {η α : Type} [DecidableEq α] {net : Nat → FetchResult η}
    {extract : η → List α} {nextOf : η → Option Nat} {cur n : Nat} {b : η}
    (fuel : Nat) (acc : List α) (hnc : net cur = .ok b) (hnx : nextOf b = some n) :
    fetchPagesLoop net extract nextOf (fuel + 1) cur acc =
      if n ≠ 0 ∧ n = cur + 1 then
        ((fetchPagesLoop net extract nextOf fuel n (acc ++ extract b)).1,
         cur :: (fetchPagesLoop net extract nextOf fuel n (acc ++ extract b)).2)
      else (.done (dedupFirst (acc ++ extract b)), [cur]) := by
  simp only [fetchPagesLoop, hnc, hnx]

lemma fetchPagesLoop_fetched_chain {η α : Type} [DecidableEq α] (net : Nat → FetchResult η)
    (extract : η → List α) (nextOf : η → Option Nat) :
    ∀ fuel cur acc, ∃ k, (fetchPagesLoop net extract nextOf fuel cur acc).2 =
      List.range' cur k ∧ k ≤ fuel := by
  intro fuel
  induction fuel with
  | zero =>
    intro cur acc
    exact ⟨0, rfl, Nat.le_refl 0⟩
  | succ fuel ih =>
    intro cur acc
    cases hnc : net cur with
    | err s =>
      rw [fetchPagesLoop_err fuel acc hnc]
      by_cases hcond : s = 404 ∧ 1 < cur
      · rw [if_pos hcond]
        exact ⟨1, by simp [List.range'], by omega⟩
      · rw [if_neg hcond]
        exact ⟨1, by simp [List.range'], by omega⟩
    | ok body =>
      cases hnx : nextOf body with
      | none =>
        rw [fetchPagesLoop_ok_none fuel acc hnc hnx]
        exact ⟨1, by simp [List.range'], by omega⟩
      | some n =>
        rw [fetchPagesLoop_ok_some fuel acc hnc hnx]
        by_cases hcond : n ≠ 0 ∧ n = cur + 1
        · rw [if_pos hcond]
          obtain ⟨-, hneq⟩ := hcond
          subst hneq
          obtain ⟨k, hk, hkle⟩ := ih (cur + 1) (acc ++ extract body)
          refine ⟨k + 1, ?_, by omega⟩
          rw [List.range'_succ]
          dsimp only
          rw [hk]
        · rw [if_neg hcond]
          exact ⟨1, by simp [List.range'], by omega⟩

lemma fetchPagesLoop_fetched_pos {η α : Type} [DecidableEq α] (net : Nat → FetchResult η)
    (extract : η → List α) (nextOf : η → Option Nat) (fuel cur : Nat) (acc : List α)
    (hf : fuel ≠ 0) : 1 ≤ (fetchPagesLoop net extract nextOf fuel cur acc).2.length := by
  cases fuel with
  | zero => exact absurd rfl hf
  | succ fuel =>
    cases hnc : net cur with
    | err s =>
      rw [fetchPagesLoop_err fuel acc hnc]
      by_cases hcond : s = 404 ∧ 1 < cur
      · rw [if_pos hcond]
        simp
      · rw [if_neg hcond]
        simp
    | ok body =>
      cases hnx : nextOf body with
      | none =>
        rw [fetchPagesLoop_ok_none fuel acc hnc hnx]
        simp
      | some n =>
        rw [fetchPagesLoop_ok_some fuel acc hnc hnx]
        by_cases hcond : n ≠ 0 ∧ n = cur + 1
        · rw [if_pos hcond]
          simp
        · rw [if_neg hcond]
          simp

lemma fetchPagesLoop_continue_cause {η α : Type} [DecidableEq α] (net : Nat → FetchResult η)
    (extract : η → List α) (nextOf : η → Option Nat) :
    ∀ fuel cur acc p, p ∈ (fetchPagesLoop net extract nextOf fuel cur acc).2 →
      p + 1 ∈ (fetchPagesLoop net extract nextOf fuel cur acc).2 →
      ∃ b, net p = .ok b ∧ nextOf b = some (p + 1) := by
  intro fuel
  induction fuel with
  | zero =>
    intro cur acc p hp hp1
    exact absurd hp (by simp [fetchPagesLoop])
  | succ fuel ih =>
    intro cur acc p hp hp1
    cases hnc : net cur with
    | err s =>
      rw [fetchPagesLoop_err fuel acc hnc] at hp hp1
      by_cases hcond : s = 404 ∧ 1 < cur
      · rw [if_pos hcond] at hp hp1
        simp at hp hp1
        exact absurd hp1 (by omega)
      · rw [if_neg hcond] at hp hp1
        simp at hp hp1
        exact absurd hp1 (by omega)
    | ok body =>
      cases hnx : nextOf body with
      | none =>
        rw [fetchPagesLoop_ok_none fuel acc hnc hnx] at hp hp1
        simp at hp hp1
        exact absurd hp1 (by omega)
      | some n =>
        rw [fetchPagesLoop_ok_some fuel acc hnc hnx] at hp hp1
        by_cases hcond : n ≠ 0 ∧ n = cur + 1
        · rw [if_pos hcond] at hp hp1
          obtain ⟨hn0, hneq⟩ := hcond
          subst hneq
          dsimp only at hp hp1
          rw [List.mem_cons] at hp hp1
          rcases hp with rfl | hp
          · exact ⟨body, hnc, hnx⟩
          · rcases hp1 with hq | hq
            · obtain ⟨k, hk, -⟩ := fetchPagesLoop_fetched_chain net extract nextOf fuel
                (cur + 1) (acc ++ extract body)
              rw [hk] at hp
              have hb := List.mem_range'_1.1 hp
              exact absurd hq (by omega)
            · exact ih (cur + 1) (acc ++ extract body) p hp hq
        · rw [if_neg hcond] at hp hp1
          simp at hp hp1
          exact absurd hp1 (by omega)

lemma fetchPagesLoop_stop_cause {η α : Type} [DecidableEq α] (net : Nat → FetchResult η)
    (extract : η → List α) (nextOf : η → Option Nat) :
    ∀ fuel cur acc, 1 ≤ cur →
      (fetchPagesLoop net extract nextOf fuel cur acc).1 ≠ .fuelOut →
      ∀ b, net (cur + (fetchPagesLoop net extract nextOf fuel cur acc).2.length - 1) = .ok b →
        nextOf b ≠ some (cur + (fetchPagesLoop net extract nextOf fuel cur acc).2.length) := by
  intro fuel
  induction fuel with
  | zero =>
    intro cur acc hcur hnf
    exact absurd rfl hnf
  | succ fuel ih =>
    intro cur acc hcur hnf b hb
    cases hnc : net cur with
    | err s =>
      rw [fetchPagesLoop_err fuel acc hnc] at hnf hb ⊢
      by_cases hcond : s = 404 ∧ 1 < cur
      · rw [if_pos hcond] at hb
        have hb' : net cur = .ok b := hb
        exact FetchResult.noConfusion (hnc.symm.trans hb')
      · rw [if_neg hcond] at hb
        have hb' : net cur = .ok b := hb
        exact FetchResult.noConfusion (hnc.symm.trans hb')
    | ok body =>
      cases hnx : nextOf body with
      | none =>
        rw [fetchPagesLoop_ok_none fuel acc hnc hnx] at hnf hb ⊢
        have hb' : net cur = .ok b := hb
        have hbb : body = b := FetchResult.ok.inj (hnc.symm.trans hb')
        intro hcontra
        have hcontra' : nextOf body = some (cur + 1) := by
          rw [hbb]
          exact hcontra
        rw [hnx] at hcontra'
        exact Option.noConfusion hcontra'
      | some n =>
        rw [fetchPagesLoop_ok_some fuel acc hnc hnx] at hnf hb ⊢
        by_cases hcond : n ≠ 0 ∧ n = cur + 1
        · rw [if_pos hcond] at hnf hb ⊢
          obtain ⟨-, hneq⟩ := hcond
          subst hneq
          dsimp only at hnf hb ⊢
          simp only [List.length_cons] at hb ⊢
          rw [show cur + ((fetchPagesLoop net extract nextOf fuel (cur + 1)
                (acc ++ extract body)).2.length + 1) - 1
              = cur + 1 + (fetchPagesLoop net extract nextOf fuel (cur + 1)
                (acc ++ extract body)).2.length - 1 from by omega] at hb
          rw [show cur + ((fetchPagesLoop net extract nextOf fuel (cur + 1)
                (acc ++ extract body)).2.length + 1)
              = cur + 1 + (fetchPagesLoop net extract nextOf fuel (cur + 1)
                (acc ++ extract body)).2.length from by omega]
          exact ih (cur + 1) (acc ++ extract body) (by omega) hnf b hb
        · rw [if_neg hcond] at hnf hb ⊢
          have hb' : net cur = .ok b := hb
          have hbb : body = b := FetchResult.ok.inj (hnc.symm.trans hb')
          intro hcontra
          have hcontra' : nextOf body = some (cur + 1) := by
            rw [hbb]
            exact hcontra
          rw [hnx] at hcontra'
          have hn : n = cur + 1 := Option.some.inj hcontra'
          exact hcond ⟨by omega, hn⟩

lemma fetchPagesLoop_err_stop {η α : Type} [DecidableEq α] (net : Nat → FetchResult η)
    (extract : η → List α) (nextOf : η → Option Nat) :
    ∀ fuel cur acc, 1 ≤ cur →
      (fetchPagesLoop net extract nextOf fuel cur acc).1 ≠ .fuelOut →
      ∀ s, net (cur + (fetchPagesLoop net extract nextOf fuel cur acc).2.length - 1) = .err s →
        ((s = 404 ∧ 1 < cur + (fetchPagesLoop net extract nextOf fuel cur acc).2.length - 1) →
           (fetchPagesLoop net extract nextOf fuel cur acc).1 =
             .done (dedupFirst (acc ++
               (List.range' cur ((fetchPagesLoop net extract nextOf fuel cur acc).2.length - 1)).flatMap
                 (pageWords net extract)))) ∧
        (¬(s = 404 ∧ 1 < cur + (fetchPagesLoop net extract nextOf fuel cur acc).2.length - 1) →
           (fetchPagesLoop net extract nextOf fuel cur acc).1 = .failed) := by
  intro fuel
  induction fuel with
  | zero =>
    intro cur acc hcur hnf
    exact absurd rfl hnf
  | succ fuel ih =>
    intro cur acc hcur hnf s herr
    cases hnc : net cur with
    | err s0 =>
      rw [fetchPagesLoop_err fuel acc hnc] at hnf herr ⊢
      by_cases hcond : s0 = 404 ∧ 1 < cur
      · rw [if_pos hcond] at herr ⊢
        have herr' : net cur = .err s := herr
        have hs : s0 = s := FetchResult.err.inj (hnc.symm.trans herr')
        constructor
        · intro _
          simp
        · intro hneg
          exact absurd ⟨hs ▸ hcond.1, hcond.2⟩ hneg
      · rw [if_neg hcond] at herr ⊢
        have herr' : net cur = .err s := herr
        have hs : s0 = s := FetchResult.err.inj (hnc.symm.trans herr')
        constructor
        · intro hg
          exact absurd ⟨hs ▸ hg.1, hg.2⟩ hcond
        · intro _
          rfl
    | ok body =>
      cases hnx : nextOf body with
      | none =>
        rw [fetchPagesLoop_ok_none fuel acc hnc hnx] at herr
        have herr' : net cur = .err s := herr
        exact FetchResult.noConfusion (hnc.symm.trans herr')
      | some n =>
        rw [fetchPagesLoop_ok_some fuel acc hnc hnx] at hnf herr ⊢
        by_cases hcond : n ≠ 0 ∧ n = cur + 1
        · rw [if_pos hcond] at hnf herr ⊢
          obtain ⟨-, hneq⟩ := hcond
          subst hneq
          dsimp only at hnf herr ⊢
          simp only [List.length_cons] at herr ⊢
          rw [show cur + ((fetchPagesLoop net extract nextOf fuel (cur + 1)
                (acc ++ extract body)).2.length + 1) - 1
              = cur + 1 + (fetchPagesLoop net extract nextOf fuel (cur + 1)
                (acc ++ extract body)).2.length - 1 from by omega] at herr ⊢
          rw [Nat.add_sub_cancel]
          have hnf' : (fetchPagesLoop net extract nextOf fuel (cur + 1)
              (acc ++ extract body)).1 ≠ .fuelOut := hnf
          have hfz : fuel ≠ 0 := by
            intro h0
            rw [h0] at hnf'
            exact hnf' rfl
          have hpos := fetchPagesLoop_fetched_pos net extract nextOf fuel (cur + 1)
            (acc ++ extract body) hfz
          obtain ⟨m, hm⟩ : ∃ m, (fetchPagesLoop net extract nextOf fuel (cur + 1)
              (acc ++ extract body)).2.length = m + 1 :=
            ⟨(fetchPagesLoop net extract nextOf fuel (cur + 1)
                (acc ++ extract body)).2.length - 1, by omega⟩
          have hih := ih (cur + 1) (acc ++ extract body) (by omega) hnf' s herr
          have hval : acc ++ (List.range' cur ((fetchPagesLoop net extract nextOf fuel (cur + 1)
                (acc ++ extract body)).2.length)).flatMap (pageWords net extract)
              = (acc ++ extract body) ++
                (List.range' (cur + 1) ((fetchPagesLoop net extract nextOf fuel (cur + 1)
                  (acc ++ extract body)).2.length - 1)).flatMap (pageWords net extract) := by
            rw [hm, Nat.add_sub_cancel, List.range'_succ, List.flatMap_cons,
              show pageWords net extract cur = extract body from by simp [pageWords, hnc],
              List.append_assoc]
          constructor
          · intro hg
            rw [hval]
            exact hih.1 hg
          · exact hih.2
        · rw [if_neg hcond] at herr
          have herr' : net cur = .err s := herr
          exact FetchResult.noConfusion (hnc.symm.trans herr')

/-- C3: starting from page 1, the fetched page numbers are exactly
`[1, 2, …, k]` (never out of sequence); page `p + 1` is fetched only
when page `p` was fetched successfully and declared next-page number
`p + 1`; and when the loop stopped on its own (not by the fuel
artifact), its last page did not declare next-page number
`current + 1` — a missing or non-consecutive declaration halts
collection. -/
theorem spec_C3 {η α : Type} [DecidableEq α] (net : Nat → FetchResult η)
    (extract : η → List α) (nextOf : η → Option Nat) (fuel : Nat) (acc : List α) :
    ((fetchPagesLoop net extract nextOf fuel 1 acc).2 =
        List.range' 1 (fetchPagesLoop net extract nextOf fuel 1 acc).2.length) ∧
    (∀ p, p ∈ (fetchPagesLoop net extract nextOf fuel 1 acc).2 →
        p + 1 ∈ (fetchPagesLoop net extract nextOf fuel 1 acc).2 →
        ∃ b, net p = .ok b ∧ nextOf b = some (p + 1)) ∧
    ((fetchPagesLoop net extract nextOf fuel 1 acc).1 ≠ .fuelOut →
      ∀ b, net ((fetchPagesLoop net extract nextOf fuel 1 acc).2.length) = .ok b →
        nextOf b ≠ some ((fetchPagesLoop net extract nextOf fuel 1 acc).2.length + 1)) := by
  refine ⟨?_, fetchPagesLoop_continue_cause net extract nextOf fuel 1 acc, ?_⟩
  · obtain ⟨k, hk, -⟩ := fetchPagesLoop_fetched_chain net extract nextOf fuel 1 acc
    rw [hk, List.length_range']
  · intro hnf b hb
    have h := fetchPagesLoop_stop_cause net extract nextOf fuel 1 acc (Nat.le_refl 1) hnf b
    rw [show 1 + (fetchPagesLoop net extract nextOf fuel 1 acc).2.length - 1
        = (fetchPagesLoop net extract nextOf fuel 1 acc).2.length from by omega] at h
    have h2 := h hb
    rw [show (1 : Nat) + (fetchPagesLoop net extract nextOf fuel 1 acc).2.length
        = (fetchPagesLoop net extract nextOf fuel 1 acc).2.length + 1 from by omega] at h2
    exact h2

/-- C4: when the loop's last fetched page answered with a non-success
status `s` (and the run is not the fuel artifact), then: if the
failure is not a 404 on a page after the first, the loop throws and
the whole collection returns the empty list rather than the partial
accumulation; if it is a 404 on a page after the first, pagination
ends normally and the collection returns the deduplicated words of
the earlier pages. -/
theorem spec_C4 {η : Type} (net : Nat → FetchResult η)
    (extract : Nat → η → List (List Char)) (nextOf : η → Option Nat)
    (rules : RuleSet) (fuel : Nat) (s : Nat)
    (hex : rules.exact ≠ [])
    (hnf : (fetchPagesLoop net (extract rules.length) nextOf fuel 1 []).1 ≠ .fuelOut)
    (herr : net ((fetchPagesLoop net (extract rules.length) nextOf fuel 1 []).2.length) = .err s) :
    (¬(s = 404 ∧ 1 < (fetchPagesLoop net (extract rules.length) nextOf fuel 1 []).2.length) →
        (fetchPagesLoop net (extract rules.length) nextOf fuel 1 []).1 = .failed ∧
        fetchWordListByPosition net extract nextOf rules fuel = []) ∧
    ((s = 404 ∧ 1 < (fetchPagesLoop net (extract rules.length) nextOf fuel 1 []).2.length) →
        (fetchPagesLoop net (extract rules.length) nextOf fuel 1 []).1 =
          CollectOutcome.done (dedupFirst ((List.range' 1
            ((fetchPagesLoop net (extract rules.length) nextOf fuel 1 []).2.length - 1)).flatMap
              (pageWords net (extract rules.length)))) ∧
        fetchWordListByPosition net extract nextOf rules fuel =
          dedupFirst ((List.range' 1
            ((fetchPagesLoop net (extract rules.length) nextOf fuel 1 []).2.length - 1)).flatMap
              (pageWords net (extract rules.length)))) := by
  have e1 : 1 + (fetchPagesLoop net (extract rules.length) nextOf fuel 1 []).2.length - 1
      = (fetchPagesLoop net (extract rules.length) nextOf fuel 1 []).2.length := by omega
  have h := fetchPagesLoop_err_stop net (extract rules.length) nextOf fuel 1 []
    (Nat.le_refl 1) hnf s (by rw [e1]; exact herr)
  rw [e1, List.nil_append] at h
  constructor
  · intro hneg
    have hfail := h.2 hneg
    refine ⟨hfail, ?_⟩
    cases hre : rules.exact with
    | nil => exact absurd hre hex
    | cons hd tl => simp [fetchWordListByPosition, hre, hfail]
  · intro hg
    have hdone := h.1 hg
    refine ⟨hdone, ?_⟩
    cases hre : rules.exact with
    | nil => exact absurd hre hex
    | cons hd tl => simp [fetchWordListByPosition, hre, hdone]

/-- Concrete network for the C4 witness: page 1 succeeds with one word
and declares next page 2; page 2 answers 404. -/
def c4net : Nat → FetchResult (List (List Char) × Option Nat) :=
  fun p => if p = 1 then .ok ([['C', 'A', 'T']], some 2) else .err 404

/-- Concrete extraction for the C4 witness (the body carries its words). -/
def c4extract : Nat → List (List Char) × Option Nat → List (List Char) :=
  fun _ b => b.1

/-- Concrete next-page declaration for the C4 witness. -/
def c4nextOf : List (List Char) × Option Nat → Option Nat := fun b => b.2

/-- Concrete rule set for the C4 witness (one exact seed, length 3). -/
def c4rules : RuleSet := ⟨[(0, 'C')], [], [], 3⟩

/-- Witness for C4: a 404 on page 2 after a successful page 1 ends
pagination normally with page 1's deduplicated words. -/
theorem spec_C4_witness :
    (c4rules.exact ≠ [] ∧
     (fetchPagesLoop c4net (c4extract c4rules.length) c4nextOf 5 1 []).1 ≠
       CollectOutcome.fuelOut ∧
     c4net ((fetchPagesLoop c4net (c4extract c4rules.length) c4nextOf 5 1 []).2.length) =
       FetchResult.err 404) ∧
    ((¬(404 = 404 ∧ 1 < (fetchPagesLoop c4net (c4extract c4rules.length) c4nextOf 5 1 []).2.length) →
        (fetchPagesLoop c4net (c4extract c4rules.length) c4nextOf 5 1 []).1 =
          CollectOutcome.failed ∧
        fetchWordListByPosition c4net c4extract c4nextOf c4rules 5 = []) ∧
     ((404 = 404 ∧ 1 < (fetchPagesLoop c4net (c4extract c4rules.length) c4nextOf 5 1 []).2.length) →
        (fetchPagesLoop c4net (c4extract c4rules.length) c4nextOf 5 1 []).1 =
          CollectOutcome.done (dedupFirst ((List.range' 1
            ((fetchPagesLoop c4net (c4extract c4rules.length) c4nextOf 5 1 []).2.length - 1)).flatMap
              (pageWords c4net (c4extract c4rules.length)))) ∧
        fetchWordListByPosition c4net c4extract c4nextOf c4rules 5 =
          dedupFirst ((List.range' 1
            ((fetchPagesLoop c4net (c4extract c4rules.length) c4nextOf 5 1 []).2.length - 1)).flatMap
              (pageWords c4net (c4extract c4rules.length))))) :=
  ⟨⟨by decide, by decide, by decide⟩,
    spec_C4 c4net c4extract c4nextOf c4rules 5 404 (by decide) (by decide) (by decide)⟩

end WordleAI
